import Mathlib

/-!
Verification of the core search routines of the `sae_hacking` repository:
the pairwise feature-relationship finder `find_similar_noncooccurring_pairs`
(`src/sae_hacking/look_for_pairs.py`) and the four-node motif finder
`find_pattern` (`src/sae_hacking/find_4tuples.py`).

Numeric modelling: the Python code works with floating-point tensors; here
all matrix entries are exact rationals.  The cosine similarity of two rows
`x`, `y` is `dot(x,y) / (‖x‖·‖y‖)`, an algebraic number of the shape
`q / √r` with `q r : ℚ`.  Such numbers are represented exactly by the
computable structure `SimVal` (numerator and radicand), with a decidable
order `SimVal.leB` and a real-valued interpretation `SimVal.val` used in
specification statements.
-/

namespace SaeHacking

/-! ### Exact representation of `q / √r` values -/

/-- An exact representation of a real number of the form `num / √rad`.
All values produced by the similarity computation have `0 < rad`. -/
structure SimVal where
  num : ℚ
  rad : ℚ
deriving DecidableEq

/-- The real number represented by a `SimVal`. -/
noncomputable def SimVal.val (x : SimVal) : ℝ := (x.num : ℝ) / Real.sqrt (x.rad : ℝ)

/-- Decidable comparison `x ≤ y` of two `SimVal`s (correct when both
radicands are positive): separate by sign of the numerators, then compare
squares. -/
def SimVal.leB (x y : SimVal) : Bool :=
  if x.num ≤ 0 then
    if 0 ≤ y.num then true
    else decide (y.num ^ 2 * x.rad ≤ x.num ^ 2 * y.rad)
  else
    if y.num ≤ 0 then false
    else decide (x.num ^ 2 * y.rad ≤ y.num ^ 2 * x.rad)

/-- Decidable strict comparison `x < y`, as the negation of `y ≤ x`. -/
def SimVal.ltB (x y : SimVal) : Bool := ! SimVal.leB y x

/-! ### Embedding of `find_similar_noncooccurring_pairs`
(`look_for_pairs.py`, lines 17-95).

Matrices are lists of rows of rationals.  `torch.sign` becomes `signq`
mapped over a row; `F.normalize` followed by the matmul
`normalized_effects_eE @ normalized_effects_eE[i]` composes to the cosine
similarity `dot(x,y)/(√(Σx²)·√(Σy²))`, captured exactly by `cosSim`
(`F.normalize` maps a zero row to the zero vector, hence similarity `0`,
represented as `⟨0, 1⟩`).  The Python `for`/`continue`/`break` loop over
anchors is `lookGo`; the trailing stable `list.sort(key=..., reverse=True)`
is the stable insertion sort `sortBySimDesc`. -/

/-- Dot product of two rows. -/
def dotq (x y : List ℚ) : ℚ := (List.zipWith (fun a b => a * b) x y).sum

/-- Sum of squares of a row. -/
def sumSq (x : List ℚ) : ℚ := dotq x x

/-- `torch.sign` on a single entry. -/
def signq (q : ℚ) : ℚ := if 0 < q then 1 else if q < 0 then -1 else 0

/-- Cosine similarity of two rows, as produced by `F.normalize` (dim=1)
followed by a dot product: a zero-norm row normalizes to the zero vector,
giving similarity 0; otherwise the value is `dot x y / √(sumSq x · sumSq y)`. -/
def cosSim (x y : List ℚ) : SimVal :=
  if sumSq x = 0 ∨ sumSq y = 0 then ⟨0, 1⟩ else ⟨dotq x y, sumSq x * sumSq y⟩

/-- Python `if skip_before and skip_before > i: continue` — note the
truthiness test: `skip_before = 0` (or `None`) never triggers the skip. -/
def skipBeforeHit (sb : Option ℤ) (i : ℕ) : Bool :=
  match sb with
  | none => false
  | some v => decide (v ≠ 0) && decide ((i : ℤ) < v)

/-- Python `if skip_after and skip_after < i: continue`, with the same
truthiness convention. -/
def skipAfterHit (sa : Option ℤ) (i : ℕ) : Bool :=
  match sa with
  | none => false
  | some v => decide (v ≠ 0) && decide (v < (i : ℤ))

/-- Python `if max_steps is not None and i >= max_steps: break`. -/
def maxStepsHit (ms : Option ℤ) (i : ℕ) : Bool :=
  match ms with
  | none => false
  | some m => decide (m ≤ (i : ℤ))

/-- The candidate pairs collected for anchor `i`: all `j` in `0..n-1`
(ascending, as produced by `torch.where` on the combined mask) with
`cooccurrences[i][j] <= cooccurrence_threshold` and
`cosine_sim(i,j) >= cosine_sim_threshold`.  There is no mask on `j`
relative to `i`. -/
def anchorPairs (n : ℕ) (ct : ℤ) (st : ℚ) (cooc : ℕ → ℕ → ℚ)
    (sim : ℕ → ℕ → SimVal) (i : ℕ) : List (ℕ × ℕ × SimVal) :=
  (List.range n).filterMap fun j =>
    if cooc i j ≤ (ct : ℚ) ∧ SimVal.leB ⟨st, 1⟩ (sim i j) = true then
      some (i, j, sim i j)
    else none

/-- The anchor loop of `find_similar_noncooccurring_pairs`: iterate over
anchor indices in order; `continue` on the skip-before / skip-after tests,
`break` once `max_steps` is hit, `continue` on the last index
(`i >= num_ablators - 1`), otherwise collect `anchorPairs`. -/
def lookGo (n : ℕ) (ct : ℤ) (st : ℚ) (ms sb sa : Option ℤ)
    (cooc : ℕ → ℕ → ℚ) (sim : ℕ → ℕ → SimVal) : List ℕ → List (ℕ × ℕ × SimVal)
  | [] => []
  | i :: rest =>
    if skipBeforeHit sb i then lookGo n ct st ms sb sa cooc sim rest
    else if skipAfterHit sa i then lookGo n ct st ms sb sa cooc sim rest
    else if maxStepsHit ms i then []
    else if n - 1 ≤ i then lookGo n ct st ms sb sa cooc sim rest
    else anchorPairs n ct st cooc sim i ++ lookGo n ct st ms sb sa cooc sim rest

/-- Stable insertion (descending by similarity) of one triple into an
already-sorted list: the new element goes after every element whose
similarity is ≥ its own, before the first strictly-smaller one. -/
def insertDesc (x : ℕ × ℕ × SimVal) : List (ℕ × ℕ × SimVal) → List (ℕ × ℕ × SimVal)
  | [] => [x]
  | y :: ys => if SimVal.ltB y.2.2 x.2.2 then x :: y :: ys else y :: insertDesc x ys

/-- The stable sort `similar_pairs.sort(key=lambda x: x[2], reverse=True)`:
Python's sort is stable, so triples with equal similarity keep their
insertion order.  Modelled as a stable insertion sort. -/
def sortBySimDesc (l : List (ℕ × ℕ × SimVal)) : List (ℕ × ℕ × SimVal) :=
  l.foldl (fun acc x => insertDesc x acc) []

/-- `find_similar_noncooccurring_pairs` (`look_for_pairs.py`, lines 17-95).
Returns the list of `(ablator1, ablator2, cosine_similarity)` triples. -/
def find_similar_noncooccurring_pairs (effects_eE : List (List ℚ))
    (cooccurrences_ee : List (List ℚ)) (cooccurrence_threshold : ℤ)
    (cosine_sim_threshold : ℚ) (max_steps skip_before skip_after : Option ℤ)
    (skip_torch_sign : Bool) : List (ℕ × ℕ × SimVal) :=
  let n := effects_eE.length
  let rows := effects_eE.map (fun r => if skip_torch_sign then r else r.map signq)
  let sim := fun i j => cosSim (rows.getD i []) (rows.getD j [])
  let cooc := fun i j => (cooccurrences_ee.getD i []).getD j 0
  sortBySimDesc (lookGo n cooccurrence_threshold cosine_sim_threshold
    max_steps skip_before skip_after cooc sim (List.range n))

/-- Strict lexicographic order on the (anchor, partner) components of a
returned triple — the order in which the loop generates triples. -/
def pairLexLt (a b : ℕ × ℕ × SimVal) : Prop :=
  a.1 < b.1 ∨ (a.1 = b.1 ∧ a.2.1 < b.2.1)

/-- The order the specification claims of the output: similarity
non-increasing, and for equal similarity values ascending by the pair
(i, j). -/
def simDescOrder (a b : ℕ × ℕ × SimVal) : Prop :=
  b.2.2.val ≤ a.2.2.val ∧ (a.2.2.val = b.2.2.val → pairLexLt a b)

/-! ### Embedding of `find_pattern` (`find_4tuples.py`, lines 10-50).

`tensor_dict` is a dict from node id to a vector of signed weights; dicts
preserve insertion order, so it is modelled as an association list.
`pos_neighbors`/`neg_neighbors` are the index sets of strictly positive /
strictly negative entries of the node's row (self-indices included: the
code does not exclude `reader_node == ablator_node`). -/

/-- Indices of strictly positive entries of a row. -/
def posNeighbors (row : List ℚ) : List ℕ :=
  (List.range row.length).filter fun j => decide (0 < row.getD j 0)

/-- Indices of strictly negative entries of a row. -/
def negNeighbors (row : List ℚ) : List ℕ :=
  (List.range row.length).filter fun j => decide (row.getD j 0 < 0)

/-- `find_pattern`: for every ordered pair of distinct keys `(A, C)`,
emit `(A, B, C, D)` for every `B` positive from both `A` and `C` and every
`D` positive from `A` and negative from `C`, provided `B ≠ D`. -/
def find_pattern (tensor_dict : List (ℕ × List ℚ)) : List (ℕ × ℕ × ℕ × ℕ) :=
  tensor_dict.flatMap fun ac =>
    tensor_dict.flatMap fun cc =>
      if ac.1 = cc.1 then []
      else
        let common_B := (posNeighbors ac.2).filter fun b => decide (b ∈ posNeighbors cc.2)
        let potential_D := (posNeighbors ac.2).filter fun d => decide (d ∈ negNeighbors cc.2)
        common_B.flatMap fun b =>
          potential_D.filterMap fun d =>
            if b ≠ d then some (ac.1, b, cc.1, d) else none

/-! ### Order properties of `SimVal` -/

theorem sqrtMulLe_iff (a c b d : ℝ) (hb : 0 ≤ b) (ha : 0 ≤ a) (hc : 0 ≤ c) :
    a * Real.sqrt d ≤ c * Real.sqrt b ↔ a ^ 2 * d ≤ c ^ 2 * b := by
  have h1 : a * Real.sqrt d = Real.sqrt (a ^ 2 * d) := by
    rw [Real.sqrt_mul (by positivity), Real.sqrt_sq ha]
  have h2 : c * Real.sqrt b = Real.sqrt (c ^ 2 * b) := by
    rw [Real.sqrt_mul (by positivity), Real.sqrt_sq hc]
  rw [h1, h2, Real.sqrt_le_sqrt_iff (by positivity)]

theorem SimVal.leB_iff {x y : SimVal} (hx : 0 < x.rad) (hy : 0 < y.rad) :
    SimVal.leB x y = true ↔ x.val ≤ y.val := by
  have hbx : (0:ℝ) < Real.sqrt (x.rad : ℝ) := Real.sqrt_pos.mpr (by exact_mod_cast hx)
  have hby : (0:ℝ) < Real.sqrt (y.rad : ℝ) := Real.sqrt_pos.mpr (by exact_mod_cast hy)
  rw [SimVal.val, SimVal.val, div_le_div_iff₀ hbx hby]
  unfold SimVal.leB
  split_ifs with h1 h2 h3
  · refine iff_of_true rfl ?_
    calc ((x.num : ℝ)) * Real.sqrt (y.rad : ℝ) ≤ 0 * Real.sqrt (y.rad : ℝ) :=
          mul_le_mul_of_nonneg_right (by exact_mod_cast h1) hby.le
      _ = 0 := zero_mul _
      _ ≤ (y.num : ℝ) * Real.sqrt (x.rad : ℝ) :=
          mul_nonneg (by exact_mod_cast h2) hbx.le
  · push_neg at h2
    have key : ((x.num : ℝ)) * Real.sqrt (y.rad : ℝ) ≤ (y.num : ℝ) * Real.sqrt (x.rad : ℝ) ↔
        (-(y.num : ℝ)) ^ 2 * (x.rad : ℝ) ≤ (-(x.num : ℝ)) ^ 2 * (y.rad : ℝ) := by
      rw [← neg_le_neg_iff, ← neg_mul, ← neg_mul]
      exact sqrtMulLe_iff (-(y.num : ℝ)) (-(x.num : ℝ)) (y.rad : ℝ) (x.rad : ℝ)
        (by positivity) (by simp; exact_mod_cast h2.le) (by simp; exact_mod_cast h1)
    rw [decide_eq_true_iff, key, neg_sq, neg_sq]
    constructor
    · intro h; exact_mod_cast h
    · intro h; exact_mod_cast h
  · push_neg at h1
    refine iff_of_false (by simp) ?_
    rw [not_le]
    calc ((y.num : ℝ)) * Real.sqrt (x.rad : ℝ) ≤ 0 * Real.sqrt (x.rad : ℝ) :=
          mul_le_mul_of_nonneg_right (by exact_mod_cast h3) hbx.le
      _ = 0 := zero_mul _
      _ < (x.num : ℝ) * Real.sqrt (y.rad : ℝ) :=
          mul_pos (by exact_mod_cast h1) hby
  · push_neg at h1 h3
    have key : ((x.num : ℝ)) * Real.sqrt (y.rad : ℝ) ≤ (y.num : ℝ) * Real.sqrt (x.rad : ℝ) ↔
        ((x.num : ℝ)) ^ 2 * (y.rad : ℝ) ≤ ((y.num : ℝ)) ^ 2 * (x.rad : ℝ) :=
      sqrtMulLe_iff ((x.num : ℝ)) ((y.num : ℝ)) (x.rad : ℝ) (y.rad : ℝ)
        (by positivity) (by exact_mod_cast h1.le) (by exact_mod_cast h3.le)
    rw [decide_eq_true_iff, key]
    constructor
    · intro h; exact_mod_cast h
    · intro h; exact_mod_cast h

theorem SimVal.ltB_iff {x y : SimVal} (hx : 0 < x.rad) (hy : 0 < y.rad) :
    SimVal.ltB x y = true ↔ x.val < y.val := by
  rw [SimVal.ltB, Bool.not_eq_true', ← not_le, ← SimVal.leB_iff hy hx]
  exact ⟨fun h hc => by simp [hc] at h, fun h => by
    cases hc : SimVal.leB y x
    · rfl
    · exact absurd hc h⟩

/-- The value of the rational `q` embedded as `⟨q, 1⟩`. -/
theorem SimVal.val_ofRat (q : ℚ) : SimVal.val ⟨q, 1⟩ = (q : ℝ) := by
  simp [SimVal.val]

/-! ### Basic facts about the similarity computation -/

theorem sumSq_cons (a : ℚ) (l : List ℚ) : sumSq (a :: l) = a * a + sumSq l := by
  simp [sumSq, dotq, List.zipWith]

theorem sumSq_nonneg (x : List ℚ) : 0 ≤ sumSq x := by
  induction x with
  | nil => simp [sumSq, dotq]
  | cons a l ih => rw [sumSq_cons]; nlinarith [mul_self_nonneg a]

theorem cosSim_rad_pos (x y : List ℚ) : 0 < (cosSim x y).rad := by
  unfold cosSim
  split_ifs with h
  · norm_num
  · push_neg at h
    exact mul_pos (lt_of_le_of_ne (sumSq_nonneg x) (Ne.symm h.1))
      (lt_of_le_of_ne (sumSq_nonneg y) (Ne.symm h.2))

theorem cosSim_zero_left {x : List ℚ} (h : sumSq x = 0) (y : List ℚ) :
    cosSim x y = ⟨0, 1⟩ := by
  unfold cosSim
  rw [if_pos (Or.inl h)]

theorem cosSim_zero_right {y : List ℚ} (h : sumSq y = 0) (x : List ℚ) :
    cosSim x y = ⟨0, 1⟩ := by
  unfold cosSim
  rw [if_pos (Or.inr h)]

/-! ### Membership characterizations -/

theorem mem_anchorPairs {n : ℕ} {ct : ℤ} {st : ℚ} {cooc : ℕ → ℕ → ℚ}
    {sim : ℕ → ℕ → SimVal} {i : ℕ} {t : ℕ × ℕ × SimVal} :
    t ∈ anchorPairs n ct st cooc sim i ↔
      ∃ j, j < n ∧ cooc i j ≤ (ct : ℚ) ∧ SimVal.leB ⟨st, 1⟩ (sim i j) = true ∧
        t = (i, j, sim i j) := by
  simp only [anchorPairs, List.mem_filterMap, List.mem_range,
    Option.ite_none_right_eq_some, Option.some.injEq]
  constructor
  · rintro ⟨j, hj, ⟨hc, hs⟩, ht⟩
    exact ⟨j, hj, hc, hs, ht.symm⟩
  · rintro ⟨j, hj, hc, hs, ht⟩
    exact ⟨j, hj, ⟨hc, hs⟩, ht.symm⟩

theorem lookGo_subset {n : ℕ} {ct : ℤ} {st : ℚ} {ms sb sa : Option ℤ}
    {cooc : ℕ → ℕ → ℚ} {sim : ℕ → ℕ → SimVal} {l : List ℕ} {t : ℕ × ℕ × SimVal}
    (h : t ∈ lookGo n ct st ms sb sa cooc sim l) :
    ∃ i ∈ l, skipBeforeHit sb i = false ∧ skipAfterHit sa i = false ∧
      ¬ (n - 1 ≤ i) ∧ t ∈ anchorPairs n ct st cooc sim i := by
  induction l with
  | nil => simp [lookGo] at h
  | cons i rest ih =>
    rw [lookGo] at h
    split_ifs at h with h1 h2 h3 h4
    · obtain ⟨i', hi', hrest⟩ := ih h
      exact ⟨i', List.mem_cons_of_mem _ hi', hrest⟩
    · obtain ⟨i', hi', hrest⟩ := ih h
      exact ⟨i', List.mem_cons_of_mem _ hi', hrest⟩
    · simp at h
    · obtain ⟨i', hi', hrest⟩ := ih h
      exact ⟨i', List.mem_cons_of_mem _ hi', hrest⟩
    · rcases List.mem_append.mp h with hl | hr
      · exact ⟨i, List.mem_cons_self i rest,
          Bool.not_eq_true _ ▸ h1, Bool.not_eq_true _ ▸ h2, h4, hl⟩
      · obtain ⟨i', hi', hrest⟩ := ih hr
        exact ⟨i', List.mem_cons_of_mem _ hi', hrest⟩

theorem mem_lookGo_none {n : ℕ} {ct : ℤ} {st : ℚ} {sb sa : Option ℤ}
    {cooc : ℕ → ℕ → ℚ} {sim : ℕ → ℕ → SimVal} {l : List ℕ} {t : ℕ × ℕ × SimVal} :
    t ∈ lookGo n ct st none sb sa cooc sim l ↔
      ∃ i ∈ l, skipBeforeHit sb i = false ∧ skipAfterHit sa i = false ∧
        ¬ (n - 1 ≤ i) ∧ t ∈ anchorPairs n ct st cooc sim i := by
  induction l with
  | nil => simp [lookGo]
  | cons i rest ih =>
    rw [lookGo]
    have hms : maxStepsHit none i = false := rfl
    split_ifs with h1 h2 h3 h4
    · rw [ih]
      constructor
      · rintro ⟨i', hi', hrest⟩
        exact ⟨i', List.mem_cons_of_mem _ hi', hrest⟩
      · rintro ⟨i', hi', hb, hrest⟩
        rcases List.mem_cons.mp hi' with rfl | hi'
        · rw [h1] at hb; simp at hb
        · exact ⟨i', hi', hb, hrest⟩
    · rw [ih]
      constructor
      · rintro ⟨i', hi', hrest⟩
        exact ⟨i', List.mem_cons_of_mem _ hi', hrest⟩
      · rintro ⟨i', hi', hb, ha, hrest⟩
        rcases List.mem_cons.mp hi' with rfl | hi'
        · rw [h2] at ha; simp at ha
        · exact ⟨i', hi', hb, ha, hrest⟩
    · rw [hms] at h3; simp at h3
    · rw [ih]
      constructor
      · rintro ⟨i', hi', hrest⟩
        exact ⟨i', List.mem_cons_of_mem _ hi', hrest⟩
      · rintro ⟨i', hi', hb, ha, hn, hrest⟩
        rcases List.mem_cons.mp hi' with rfl | hi'
        · exact absurd h4 hn
        · exact ⟨i', hi', hb, ha, hn, hrest⟩
    · rw [List.mem_append, ih]
      constructor
      · rintro (hl | ⟨i', hi', hrest⟩)
        · exact ⟨i, List.mem_cons_self i rest,
            Bool.not_eq_true _ ▸ h1, Bool.not_eq_true _ ▸ h2, h4, hl⟩
        · exact ⟨i', List.mem_cons_of_mem _ hi', hrest⟩
      · rintro ⟨i', hi', hb, ha, hn, hrest⟩
        rcases List.mem_cons.mp hi' with rfl | hi'
        · exact Or.inl hrest
        · exact Or.inr ⟨i', hi', hb, ha, hn, hrest⟩

theorem mem_insertDesc {x t : ℕ × ℕ × SimVal} {l : List (ℕ × ℕ × SimVal)} :
    t ∈ insertDesc x l ↔ t = x ∨ t ∈ l := by
  induction l with
  | nil => simp [insertDesc]
  | cons y ys ih =>
    rw [insertDesc]
    split_ifs
    · simp
    · rw [List.mem_cons, ih, List.mem_cons]
      tauto

theorem mem_sortBySimDesc_aux {t : ℕ × ℕ × SimVal} (l acc : List (ℕ × ℕ × SimVal)) :
    t ∈ l.foldl (fun acc x => insertDesc x acc) acc ↔ t ∈ acc ∨ t ∈ l := by
  induction l generalizing acc with
  | nil => simp
  | cons x xs ih =>
    rw [List.foldl_cons, ih, mem_insertDesc, List.mem_cons]
    tauto

theorem mem_sortBySimDesc {t : ℕ × ℕ × SimVal} {l : List (ℕ × ℕ × SimVal)} :
    t ∈ sortBySimDesc l ↔ t ∈ l := by
  rw [sortBySimDesc, mem_sortBySimDesc_aux]
  simp

/-- Full characterization of the output of `find_similar_noncooccurring_pairs`
when `max_steps` is `None` (no early `break`): a triple is returned exactly
when its anchor `i` survives the skip tests and the last-index test, and the
partner `j` passes both thresholds. -/
theorem mem_find_none {effects cooccurrences : List (List ℚ)} {ct : ℤ} {st : ℚ}
    {sb sa : Option ℤ} {flag : Bool} {t : ℕ × ℕ × SimVal} :
    t ∈ find_similar_noncooccurring_pairs effects cooccurrences ct st none sb sa flag ↔
      ∃ i, i ∈ List.range effects.length ∧
        skipBeforeHit sb i = false ∧ skipAfterHit sa i = false ∧
        ¬ (effects.length - 1 ≤ i) ∧
        ∃ j, j < effects.length ∧
          (cooccurrences.getD i []).getD j 0 ≤ (ct : ℚ) ∧
          SimVal.leB ⟨st, 1⟩
            (cosSim ((effects.map (fun r => if flag then r else r.map signq)).getD i [])
              ((effects.map (fun r => if flag then r else r.map signq)).getD j [])) = true ∧
          t = (i, j,
            cosSim ((effects.map (fun r => if flag then r else r.map signq)).getD i [])
              ((effects.map (fun r => if flag then r else r.map signq)).getD j [])) := by
  rw [find_similar_noncooccurring_pairs]
  simp only [mem_sortBySimDesc, mem_lookGo_none, mem_anchorPairs]

/-- What holds of every triple returned by
`find_similar_noncooccurring_pairs` (any `max_steps`): the anchor `i` is
strictly below `N - 1`, the partner `j` is below `N`, both thresholds pass,
and the similarity component is the cosine similarity of the transformed
rows `i` and `j`. -/
theorem find_mem_spec {effects cooccurrences : List (List ℚ)} {ct : ℤ} {st : ℚ}
    {ms sb sa : Option ℤ} {flag : Bool} {i j : ℕ} {s : SimVal}
    (h : (i, j, s) ∈ find_similar_noncooccurring_pairs effects cooccurrences ct st ms sb sa flag) :
    i + 1 < effects.length ∧ j < effects.length ∧
      (cooccurrences.getD i []).getD j 0 ≤ (ct : ℚ) ∧
      SimVal.leB ⟨st, 1⟩ s = true ∧
      s = cosSim ((effects.map (fun r => if flag then r else r.map signq)).getD i [])
        ((effects.map (fun r => if flag then r else r.map signq)).getD j []) := by
  simp only [find_similar_noncooccurring_pairs] at h
  rw [mem_sortBySimDesc] at h
  obtain ⟨i', hi', _, _, hn, hpair⟩ := lookGo_subset h
  rw [mem_anchorPairs] at hpair
  obtain ⟨j', hj', hc, hs, heq⟩ := hpair
  rw [Prod.ext_iff, Prod.ext_iff] at heq
  obtain ⟨hii, hjj, hss⟩ := heq
  dsimp at hii hjj hss
  subst hii; subst hjj; subst hss
  rw [List.mem_range] at hi'
  exact ⟨by omega, hj', hc, hs, rfl⟩

/-! ### Claims about the motif finder -/

/-- C7: on the 4-node signed adjacency with edges 0→1 (+), 0→2 (+),
3→1 (+), 3→2 (−), `find_pattern` returns a list containing the tuple
(0, 1, 3, 2). -/
theorem find_pattern_worked_example :
    (0, 1, 3, 2) ∈ find_pattern
      [(0, [0, 1, 1, 0]), (1, [0, 0, 0, 0]), (2, [0, 0, 0, 0]), (3, [0, 1, -1, 0])] := by
  decide

/-- C6 counterexample: on the 2-node adjacency where node 0 has a positive
self-loop and a positive edge to 1, and node 1 has a positive edge to 0 and
a negative self-loop, `find_pattern` returns the tuple (0, 0, 1, 1), in
which A = B and C = D — so returned tuples are not pairwise distinct, and
the positive self-loop of node 0 did contribute node 0 to its own
positive-neighbor set. -/
theorem find_pattern_distinctness_counterexample :
    (0 ∈ posNeighbors [1, 1]) ∧
      ¬ (∀ A B C D : ℕ,
          (A, B, C, D) ∈ find_pattern [(0, [1, 1]), (1, [1, -1])] →
            A ≠ B ∧ A ≠ C ∧ A ≠ D ∧ B ≠ C ∧ B ≠ D ∧ C ≠ D) := by
  refine ⟨by decide, fun h => ?_⟩
  exact (h 0 0 1 1 (by decide)).1 rfl

/-- C6 amended: every tuple (A, B, C, D) returned by `find_pattern`
satisfies the two inequalities the code actually enforces, A ≠ C and
B ≠ D; the other four pairs of positions may coincide, and self-loop
entries do enter the neighbor sets. -/
theorem find_pattern_AC_BD_distinct (tensor_dict : List (ℕ × List ℚ))
    (A B C D : ℕ) (h : (A, B, C, D) ∈ find_pattern tensor_dict) :
    A ≠ C ∧ B ≠ D := by
  simp only [find_pattern, List.mem_flatMap] at h
  obtain ⟨ac, _, cc, _, h⟩ := h
  by_cases hAC : ac.1 = cc.1
  · simp [hAC] at h
  · rw [if_neg hAC] at h
    simp only [List.mem_flatMap, List.mem_filterMap] at h
    obtain ⟨b, _, d, _, h⟩ := h
    by_cases hbd : b ≠ d
    · rw [if_pos hbd, Option.some.injEq, Prod.ext_iff, Prod.ext_iff, Prod.ext_iff] at h
      obtain ⟨h1, h2, h3, h4⟩ := h
      subst h1; subst h2; subst h3; subst h4
      exact ⟨hAC, hbd⟩
    · rw [if_neg hbd] at h
      exact absurd h (Option.noConfusion)

/-- C6 amended witness: the worked-example tuple (0, 1, 3, 2) indeed has
A ≠ C and B ≠ D. -/
theorem find_pattern_AC_BD_distinct_witness : (0 : ℕ) ≠ 3 ∧ (1 : ℕ) ≠ 2 :=
  find_pattern_AC_BD_distinct
    [(0, [0, 1, 1, 0]), (1, [0, 0, 0, 0]), (2, [0, 0, 0, 0]), (3, [0, 1, -1, 0])]
    0 1 3 2 (by decide)

/-! ### Claims about the pairwise feature-relationship finder -/

/-- C9: `find_similar_noncooccurring_pairs` is deterministic — identical
effects matrix, co-occurrence matrix and parameters give the same ordered
output list. -/
theorem find_similar_deterministic
    (e₁ e₂ c₁ c₂ : List (List ℚ)) (ct₁ ct₂ : ℤ) (st₁ st₂ : ℚ)
    (ms₁ ms₂ sb₁ sb₂ sa₁ sa₂ : Option ℤ) (f₁ f₂ : Bool)
    (he : e₁ = e₂) (hc : c₁ = c₂) (hct : ct₁ = ct₂) (hst : st₁ = st₂)
    (hms : ms₁ = ms₂) (hsb : sb₁ = sb₂) (hsa : sa₁ = sa₂) (hf : f₁ = f₂) :
    find_similar_noncooccurring_pairs e₁ c₁ ct₁ st₁ ms₁ sb₁ sa₁ f₁ =
      find_similar_noncooccurring_pairs e₂ c₂ ct₂ st₂ ms₂ sb₂ sa₂ f₂ := by
  subst he; subst hc; subst hct; subst hst; subst hms; subst hsb; subst hsa; subst hf
  rfl

/-- C9 witness: two runs on an identical concrete input agree. -/
theorem find_similar_deterministic_witness :
    find_similar_noncooccurring_pairs [[1], [1]] [[0, 0], [0, 0]] 0 (1/2) none none none true =
      find_similar_noncooccurring_pairs [[1], [1]] [[0, 0], [0, 0]] 0 (1/2) none none none true :=
  find_similar_deterministic [[1], [1]] [[1], [1]] [[0, 0], [0, 0]] [[0, 0], [0, 0]]
    0 0 (1/2) (1/2) none none none none none none true true
    rfl rfl rfl rfl rfl rfl rfl rfl

/-! Concrete memberships used to instantiate the claims below.  Rational
arithmetic does not reduce in the kernel (its normalization is
well-founded recursion), so these are proved through `mem_find_none` and
`norm_num` rather than by `decide`. -/

theorem mem_run2_01 :
    (0, 1, (⟨1, 1⟩ : SimVal)) ∈ find_similar_noncooccurring_pairs [[1], [1]]
      [[0, 0], [0, 0]] 0 (1/2) none none none true := by
  rw [mem_find_none]
  refine ⟨0, by decide, rfl, rfl, by decide, 1, by norm_num, ?_, ?_, ?_⟩
  · norm_num [List.getD]
  · norm_num [List.getD, cosSim, sumSq, dotq, SimVal.leB]
  · norm_num [List.getD, cosSim, sumSq, dotq]

theorem mem_run2_00_invalid :
    (0, 0, (⟨1, 1⟩ : SimVal)) ∈ find_similar_noncooccurring_pairs [[1], [1]]
      [[0, 0], [0, 0]] 0 (-2) none none none true := by
  rw [mem_find_none]
  refine ⟨0, by decide, rfl, rfl, by decide, 0, by norm_num, ?_, ?_, ?_⟩
  · norm_num [List.getD]
  · norm_num [List.getD, cosSim, sumSq, dotq, SimVal.leB]
  · norm_num [List.getD, cosSim, sumSq, dotq]

theorem mem_run3_00 :
    (0, 0, (⟨1, 1⟩ : SimVal)) ∈ find_similar_noncooccurring_pairs [[1], [1], [1]]
      [[0, 0, 0], [0, 0, 0], [0, 0, 0]] 0 (1/2) none none none true := by
  rw [mem_find_none]
  refine ⟨0, by decide, rfl, rfl, by decide, 0, by norm_num, ?_, ?_, ?_⟩
  · norm_num [List.getD]
  · norm_num [List.getD, cosSim, sumSq, dotq, SimVal.leB]
  · norm_num [List.getD, cosSim, sumSq, dotq]

theorem mem_run3_01 :
    (0, 1, (⟨1, 1⟩ : SimVal)) ∈ find_similar_noncooccurring_pairs [[1], [1], [1]]
      [[0, 0, 0], [0, 0, 0], [0, 0, 0]] 0 (1/2) none none none true := by
  rw [mem_find_none]
  refine ⟨0, by decide, rfl, rfl, by decide, 1, by norm_num, ?_, ?_, ?_⟩
  · norm_num [List.getD]
  · norm_num [List.getD, cosSim, sumSq, dotq, SimVal.leB]
  · norm_num [List.getD, cosSim, sumSq, dotq]

theorem mem_run3_10 :
    (1, 0, (⟨1, 1⟩ : SimVal)) ∈ find_similar_noncooccurring_pairs [[1], [1], [1]]
      [[0, 0, 0], [0, 0, 0], [0, 0, 0]] 0 (1/2) none none none true := by
  rw [mem_find_none]
  refine ⟨1, by decide, rfl, rfl, by decide, 0, by norm_num, ?_, ?_, ?_⟩
  · norm_num [List.getD]
  · norm_num [List.getD, cosSim, sumSq, dotq, SimVal.leB]
  · norm_num [List.getD, cosSim, sumSq, dotq]

/-- C2: every triple (i, j, s) returned by
`find_similar_noncooccurring_pairs` satisfies both keep-side threshold
predicates inclusively — `cooccurrences[i][j] ≤ cooccurrence_threshold`
and `s ≥ cosine_sim_threshold` — where `s` is the cosine similarity of
the (sign-mode-transformed, normalized) effect rows `i` and `j`. -/
theorem find_similar_thresholds (effects cooccurrences : List (List ℚ)) (ct : ℤ) (st : ℚ)
    (ms sb sa : Option ℤ) (flag : Bool) {i j : ℕ} {s : SimVal}
    (h : (i, j, s) ∈ find_similar_noncooccurring_pairs effects cooccurrences ct st ms sb sa flag) :
    (cooccurrences.getD i []).getD j 0 ≤ (ct : ℚ) ∧ ((st : ℝ) ≤ s.val) ∧
      s = cosSim ((effects.map (fun r => if flag then r else r.map signq)).getD i [])
        ((effects.map (fun r => if flag then r else r.map signq)).getD j []) := by
  obtain ⟨_, _, hc, hs, hsim⟩ := find_mem_spec h
  refine ⟨hc, ?_, hsim⟩
  have hrad : 0 < s.rad := by rw [hsim]; exact cosSim_rad_pos _ _
  have := (SimVal.leB_iff (x := ⟨st, 1⟩) (y := s) (by norm_num) hrad).mp hs
  rwa [SimVal.val_ofRat] at this

/-- C2 witness: at a concrete input the returned pair (0, 1) satisfies both
thresholds. -/
theorem find_similar_thresholds_witness :
    ((([[(0:ℚ), 0], [0, 0]] : List (List ℚ)).getD 0 []).getD 1 0 ≤ ((0 : ℤ) : ℚ)) ∧
      (((1/2 : ℚ) : ℝ) ≤ SimVal.val ⟨1, 1⟩) ∧
      (⟨1, 1⟩ : SimVal) = cosSim
        ((([[(1:ℚ)], [1]] : List (List ℚ)).map
          (fun r => if true then r else r.map signq)).getD 0 [])
        ((([[(1:ℚ)], [1]] : List (List ℚ)).map
          (fun r => if true then r else r.map signq)).getD 1 []) :=
  find_similar_thresholds [[1], [1]] [[0, 0], [0, 0]] 0 (1/2) none none none true mem_run2_01

/-- C1 counterexample: with three identical effect rows and an all-zero
co-occurrence matrix, the output contains the self-pair (0, 0, 1) as well
as both orientations (0, 1, 1) and (1, 0, 1) of the same unordered pair —
the code applies no `j ≤ i` mask, so the claimed upper-triangular guarantee
is false. -/
theorem find_similar_pairs_counterexample :
    ¬ (∀ i j : ℕ, ∀ s : SimVal,
        (i, j, s) ∈ find_similar_noncooccurring_pairs [[1], [1], [1]]
            [[0, 0, 0], [0, 0, 0], [0, 0, 0]] 0 (1/2) none none none true →
          i ≠ j ∧ (j, i, s) ∉ find_similar_noncooccurring_pairs [[1], [1], [1]]
            [[0, 0, 0], [0, 0, 0], [0, 0, 0]] 0 (1/2) none none none true) ∧
      ((0, 0, (⟨1, 1⟩ : SimVal)) ∈ find_similar_noncooccurring_pairs [[1], [1], [1]]
        [[0, 0, 0], [0, 0, 0], [0, 0, 0]] 0 (1/2) none none none true) ∧
      ((0, 1, (⟨1, 1⟩ : SimVal)) ∈ find_similar_noncooccurring_pairs [[1], [1], [1]]
        [[0, 0, 0], [0, 0, 0], [0, 0, 0]] 0 (1/2) none none none true) ∧
      ((1, 0, (⟨1, 1⟩ : SimVal)) ∈ find_similar_noncooccurring_pairs [[1], [1], [1]]
        [[0, 0, 0], [0, 0, 0], [0, 0, 0]] 0 (1/2) none none none true) := by
  exact ⟨fun hcl => (hcl 0 0 ⟨1, 1⟩ mem_run3_00).1 rfl, mem_run3_00, mem_run3_01, mem_run3_10⟩

/-- C1 amended: no self-pair or orientation filtering is applied (both
(i, j, s) with i = j and both orientations of an unordered pair can be
returned); what does hold of every returned triple is that the anchor `i`
is strictly below N − 1 and the partner `j` is below N. -/
theorem find_similar_pairs_index_range (effects cooccurrences : List (List ℚ))
    (ct : ℤ) (st : ℚ) (ms sb sa : Option ℤ) (flag : Bool) {i j : ℕ} {s : SimVal}
    (h : (i, j, s) ∈ find_similar_noncooccurring_pairs effects cooccurrences ct st ms sb sa flag) :
    i + 1 < effects.length ∧ j < effects.length :=
  ⟨(find_mem_spec h).1, (find_mem_spec h).2.1⟩

/-- C1 amended witness. -/
theorem find_similar_pairs_index_range_witness : (0 : ℕ) + 1 < 2 ∧ (1 : ℕ) < 2 :=
  find_similar_pairs_index_range [[1], [1]] [[0, 0], [0, 0]] 0 (1/2)
    none none none true (i := 0) (j := 1) (s := ⟨1, 1⟩) mem_run2_01

/-- Helper for C4: with a non-zero inverted skip range
(`0 < skip_after < skip_before`) every anchor index is skipped, so the
anchor loop collects nothing. -/
theorem lookGo_inverted_empty {n : ℕ} {ct : ℤ} {st : ℚ} {ms : Option ℤ}
    {cooc : ℕ → ℕ → ℚ} {sim : ℕ → ℕ → SimVal} {sb sa : ℤ}
    (hsa : 0 < sa) (hinv : sa < sb) :
    ∀ l, lookGo n ct st ms (some sb) (some sa) cooc sim l = [] := by
  intro l
  induction l with
  | nil => rfl
  | cons i rest ih =>
    rw [lookGo]
    by_cases hb : skipBeforeHit (some sb) i = true
    · rw [if_pos hb]; exact ih
    · have ha : skipAfterHit (some sa) i = true := by
        simp only [skipBeforeHit, Bool.and_eq_true, decide_eq_true_iff, not_and_or] at hb
        simp only [skipAfterHit, Bool.and_eq_true, decide_eq_true_iff]
        omega
      rw [if_neg hb, if_pos ha]
      exact ih

/-- C4 counterexample: the code performs no parameter validation at all.
With a similarity threshold of −2 (outside [−1, 1]) the function neither
fails nor returns empty: it returns an ordinary, non-empty result
(containing, at the concrete input below, even the self-pair (0, 0)).
(The embedding is a total function precisely because the source raises no
error on any parameter value.) -/
theorem find_similar_no_validation_counterexample :
    (0, 0, (⟨1, 1⟩ : SimVal)) ∈ find_similar_noncooccurring_pairs [[1], [1]]
      [[0, 0], [0, 0]] 0 (-2) none none none true :=
  mem_run2_00_invalid

/-- C4 amended: no `InvalidParameter` error exists; calls with out-of-range
thresholds or inverted ranges return normally.  In particular an inverted
non-zero skip range (`0 < skip_after < skip_before`) silently yields the
empty list rather than an error. -/
theorem find_similar_inverted_range_empty (effects cooccurrences : List (List ℚ))
    (ct : ℤ) (st : ℚ) (ms : Option ℤ) (flag : Bool) (sb sa : ℤ)
    (hsa : 0 < sa) (hinv : sa < sb) :
    find_similar_noncooccurring_pairs effects cooccurrences ct st ms
      (some sb) (some sa) flag = [] := by
  simp only [find_similar_noncooccurring_pairs]
  rw [lookGo_inverted_empty hsa hinv]
  rfl

/-- C4 amended witness: skip_before = 5, skip_after = 2 returns []. -/
theorem find_similar_inverted_range_empty_witness :
    find_similar_noncooccurring_pairs [[1], [1]] [[0, 0], [0, 0]] 0 0 none
      (some 5) (some 2) true = [] :=
  find_similar_inverted_range_empty [[1], [1]] [[0, 0], [0, 0]] 0 0 none true 5 2
    (by norm_num) (by norm_num)

/-- Helper: a strictly positive threshold never accepts the zero
similarity value. -/
theorem leB_pos_zero {st : ℚ} (hst : 0 < st) :
    SimVal.leB ⟨st, 1⟩ ⟨0, 1⟩ = false := by
  simp [SimVal.leB, hst.not_le]

/-- C5: a zero effect row (after the sign-mode transform) is normalized to
the zero vector rather than faulting: its cosine similarity to every row
is 0 (`⟨0, 1⟩`, of real value 0), and whenever the similarity threshold is
strictly positive no returned triple involves that row on either side. -/
theorem find_similar_zero_row (effects cooccurrences : List (List ℚ)) (ct : ℤ)
    (st : ℚ) (ms sb sa : Option ℤ) (flag : Bool) (i : ℕ)
    (hz : sumSq ((effects.map (fun r => if flag then r else r.map signq)).getD i []) = 0)
    (hst : 0 < st) :
    (∀ y, cosSim ((effects.map (fun r => if flag then r else r.map signq)).getD i []) y
      = ⟨0, 1⟩) ∧
    (∀ y, (cosSim ((effects.map (fun r => if flag then r else r.map signq)).getD i []) y).val
      = 0) ∧
    (∀ j s, (i, j, s) ∉
      find_similar_noncooccurring_pairs effects cooccurrences ct st ms sb sa flag) ∧
    (∀ j s, (j, i, s) ∉
      find_similar_noncooccurring_pairs effects cooccurrences ct st ms sb sa flag) := by
  refine ⟨fun y => cosSim_zero_left hz y, ?_, ?_, ?_⟩
  · intro y
    rw [cosSim_zero_left hz y]
    simp [SimVal.val]
  · intro j s hmem
    obtain ⟨_, _, _, hs, hsim⟩ := find_mem_spec hmem
    rw [cosSim_zero_left hz] at hsim
    rw [hsim, leB_pos_zero hst] at hs
    exact Bool.false_ne_true hs
  · intro j s hmem
    obtain ⟨_, _, _, hs, hsim⟩ := find_mem_spec hmem
    rw [cosSim_zero_right hz] at hsim
    rw [hsim, leB_pos_zero hst] at hs
    exact Bool.false_ne_true hs

/-- C5 witness: with effect row 0 equal to the zero vector and threshold
1/2, the triple (0, 1, 0) is not returned. -/
theorem find_similar_zero_row_witness :
    (0, 1, (⟨0, 1⟩ : SimVal)) ∉ find_similar_noncooccurring_pairs [[0, 0], [1, 0]]
      [[0, 0], [0, 0]] 0 (1/2) none none none true :=
  (find_similar_zero_row [[0, 0], [1, 0]] [[0, 0], [0, 0]] 0 (1/2) none none none true 0
    (by norm_num [List.getD, sumSq, dotq]) (by norm_num)).2.2.1 1 ⟨0, 1⟩

/-- Helper: the anchor loop only looks at the skip-before predicate of its
argument, so two skip-before parameters with the same predicate give the
same result. -/
theorem lookGo_sb_ext (sb sb' : Option ℤ) {n : ℕ} {ct : ℤ} {st : ℚ} {ms sa : Option ℤ}
    {cooc : ℕ → ℕ → ℚ} {sim : ℕ → ℕ → SimVal}
    (h : ∀ i, skipBeforeHit sb i = skipBeforeHit sb' i) :
    ∀ l, lookGo n ct st ms sb sa cooc sim l = lookGo n ct st ms sb' sa cooc sim l := by
  intro l
  induction l with
  | nil => rfl
  | cons i rest ih => rw [lookGo, lookGo, h i]; split_ifs <;> simp [ih]

/-- Helper: same for the skip-after predicate. -/
theorem lookGo_sa_ext (sa sa' : Option ℤ) {n : ℕ} {ct : ℤ} {st : ℚ} {ms sb : Option ℤ}
    {cooc : ℕ → ℕ → ℚ} {sim : ℕ → ℕ → SimVal}
    (h : ∀ i, skipAfterHit sa i = skipAfterHit sa' i) :
    ∀ l, lookGo n ct st ms sb sa cooc sim l = lookGo n ct st ms sb sa' cooc sim l := by
  intro l
  induction l with
  | nil => rfl
  | cons i rest ih => rw [lookGo, lookGo, h i]; split_ifs <;> simp [ih]

/-- C10: skip-bound truthiness semantics.  A skip bound of 0 imposes no
restriction (`skip_before = 0` and `skip_after = 0` behave exactly like
`None`); an anchor is hit by a skip test exactly when the bound is non-zero
and strictly beyond it; and the last anchor index N − 1 never contributes a
returned triple. -/
theorem find_similar_skip_semantics :
    (∀ e c ct st ms sa f,
      find_similar_noncooccurring_pairs e c ct st ms (some 0) sa f =
        find_similar_noncooccurring_pairs e c ct st ms none sa f) ∧
    (∀ e c ct st ms sb f,
      find_similar_noncooccurring_pairs e c ct st ms sb (some 0) f =
        find_similar_noncooccurring_pairs e c ct st ms sb none f) ∧
    (∀ (sb : ℤ) (i : ℕ), skipBeforeHit (some sb) i = true ↔ sb ≠ 0 ∧ (i : ℤ) < sb) ∧
    (∀ (sa : ℤ) (i : ℕ), skipAfterHit (some sa) i = true ↔ sa ≠ 0 ∧ sa < (i : ℤ)) ∧
    (∀ e c ct st ms sb sa f (t : ℕ × ℕ × SimVal),
      t ∈ find_similar_noncooccurring_pairs e c ct st ms sb sa f → t.1 + 1 < e.length) := by
  refine ⟨?_, ?_, ?_, ?_, ?_⟩
  · intro e c ct st ms sa f
    simp only [find_similar_noncooccurring_pairs]
    rw [lookGo_sb_ext (some 0) none (fun i => by simp [skipBeforeHit])]
  · intro e c ct st ms sb f
    simp only [find_similar_noncooccurring_pairs]
    rw [lookGo_sa_ext (some 0) none (fun i => by simp [skipAfterHit])]
  · intro sb i
    simp [skipBeforeHit]
  · intro sa i
    simp [skipAfterHit]
  · rintro e c ct st ms sb sa f ⟨i, j, s⟩ h
    exact (find_mem_spec h).1

/-- C10 witness: the returned triple (0, 1, ·) of a concrete run has its
anchor strictly below N − 1. -/
theorem find_similar_skip_semantics_witness :
    ((0, 1, (⟨1, 1⟩ : SimVal)) : ℕ × ℕ × SimVal).1 + 1 < 2 :=
  find_similar_skip_semantics.2.2.2.2 [[1], [1]] [[0, 0], [0, 0]] 0 (1/2)
    none none none true (0, 1, ⟨1, 1⟩) mem_run2_01

/-- Helper: when the skip-before test does not fire. -/
theorem skipBeforeHit_eq_false_iff (v : ℤ) (i : ℕ) :
    skipBeforeHit (some v) i = false ↔ v = 0 ∨ v ≤ (i : ℤ) := by
  rw [← Bool.not_eq_true]
  simp only [skipBeforeHit, Bool.and_eq_true, decide_eq_true_iff, not_and_or]
  omega

/-- Helper: when the skip-after test does not fire. -/
theorem skipAfterHit_eq_false_iff (v : ℤ) (i : ℕ) :
    skipAfterHit (some v) i = false ↔ v = 0 ∨ (i : ℤ) ≤ v := by
  rw [← Bool.not_eq_true]
  simp only [skipAfterHit, Bool.and_eq_true, decide_eq_true_iff, not_and_or]
  omega

/-- C8: sharding equivalence.  Running the search restricted to anchors
(0, k) (`skip_before = 0`, `skip_after = k`) and then to anchors (k, N)
(`skip_before = k`, `skip_after = N`), concatenating and re-sorting,
yields exactly the same set of triples as one unrestricted run. -/
theorem find_similar_sharding (effects cooccurrences : List (List ℚ)) (ct : ℤ)
    (st : ℚ) (flag : Bool) (k : ℕ) (_hk : k ≤ effects.length) :
    ∀ t, t ∈ sortBySimDesc
        (find_similar_noncooccurring_pairs effects cooccurrences ct st none
            (some 0) (some (k : ℤ)) flag ++
          find_similar_noncooccurring_pairs effects cooccurrences ct st none
            (some (k : ℤ)) (some (effects.length : ℤ)) flag) ↔
      t ∈ find_similar_noncooccurring_pairs effects cooccurrences ct st none
        none none flag := by
  intro t
  rw [mem_sortBySimDesc, List.mem_append, mem_find_none, mem_find_none, mem_find_none]
  constructor
  · rintro (⟨i, hi, _, _, hn, rest⟩ | ⟨i, hi, _, _, hn, rest⟩) <;>
      exact ⟨i, hi, rfl, rfl, hn, rest⟩
  · rintro ⟨i, hi, _, _, hn, rest⟩
    have hin : i < effects.length := List.mem_range.mp hi
    by_cases hik : i ≤ k
    · exact Or.inl ⟨i, hi, by simp [skipBeforeHit],
        (skipAfterHit_eq_false_iff _ _).mpr (by omega), hn, rest⟩
    · exact Or.inr ⟨i, hi, (skipBeforeHit_eq_false_iff _ _).mpr (by omega),
        (skipAfterHit_eq_false_iff _ _).mpr (by omega), hn, rest⟩

/-- C8 witness: at a concrete input with k = 1 and N = 2, the sharded
union contains the triple (0, 1, 1) exactly as the unsharded run does. -/
theorem find_similar_sharding_witness :
    ((0, 1, (⟨1, 1⟩ : SimVal)) ∈ sortBySimDesc
        (find_similar_noncooccurring_pairs [[1], [1]] [[0, 0], [0, 0]] 0 (1/2) none
            (some 0) (some 1) true ++
          find_similar_noncooccurring_pairs [[1], [1]] [[0, 0], [0, 0]] 0 (1/2) none
            (some 1) (some 2) true) ↔
      (0, 1, (⟨1, 1⟩ : SimVal)) ∈ find_similar_noncooccurring_pairs [[1], [1]]
        [[0, 0], [0, 0]] 0 (1/2) none none none true) :=
  find_similar_sharding [[1], [1]] [[0, 0], [0, 0]] 0 (1/2) true 1 (by norm_num)
    (0, 1, ⟨1, 1⟩)

/-! ### C3: sort order of the returned list -/

theorem anchorPairs_first {n : ℕ} {ct : ℤ} {st : ℚ} {cooc : ℕ → ℕ → ℚ}
    {sim : ℕ → ℕ → SimVal} {i : ℕ} {t : ℕ × ℕ × SimVal}
    (h : t ∈ anchorPairs n ct st cooc sim i) : t.1 = i := by
  obtain ⟨j, _, _, _, ht⟩ := mem_anchorPairs.mp h
  rw [ht]

theorem lookGo_first_mem {n : ℕ} {ct : ℤ} {st : ℚ} {ms sb sa : Option ℤ}
    {cooc : ℕ → ℕ → ℚ} {sim : ℕ → ℕ → SimVal} {l : List ℕ} {t : ℕ × ℕ × SimVal}
    (h : t ∈ lookGo n ct st ms sb sa cooc sim l) : t.1 ∈ l := by
  obtain ⟨i, hi, _, _, _, ht⟩ := lookGo_subset h
  rw [anchorPairs_first ht]
  exact hi

theorem lookGo_rad_pos {n : ℕ} {ct : ℤ} {st : ℚ} {ms sb sa : Option ℤ}
    {cooc : ℕ → ℕ → ℚ} {sim : ℕ → ℕ → SimVal} {l : List ℕ} {t : ℕ × ℕ × SimVal}
    (hsim : ∀ i j, 0 < (sim i j).rad)
    (h : t ∈ lookGo n ct st ms sb sa cooc sim l) : 0 < t.2.2.rad := by
  obtain ⟨i, _, _, _, _, ht⟩ := lookGo_subset h
  obtain ⟨j, _, _, _, ht⟩ := mem_anchorPairs.mp ht
  rw [ht]
  exact hsim i j

theorem anchorPairs_pairwise {n : ℕ} {ct : ℤ} {st : ℚ} {cooc : ℕ → ℕ → ℚ}
    {sim : ℕ → ℕ → SimVal} {i : ℕ} :
    (anchorPairs n ct st cooc sim i).Pairwise pairLexLt := by
  refine List.Pairwise.filterMap _ ?_ (List.pairwise_lt_range n)
  intro a b hab c hc d hd
  simp only [Option.mem_def] at hc hd
  have hc' : c = (i, a, sim i a) := by
    by_cases h : cooc i a ≤ (ct : ℚ) ∧ SimVal.leB ⟨st, 1⟩ (sim i a) = true
    · rw [if_pos h, Option.some.injEq] at hc; exact hc.symm
    · rw [if_neg h] at hc; exact absurd hc Option.noConfusion
  have hd' : d = (i, b, sim i b) := by
    by_cases h : cooc i b ≤ (ct : ℚ) ∧ SimVal.leB ⟨st, 1⟩ (sim i b) = true
    · rw [if_pos h, Option.some.injEq] at hd; exact hd.symm
    · rw [if_neg h] at hd; exact absurd hd Option.noConfusion
  rw [hc', hd']
  exact Or.inr ⟨rfl, hab⟩

theorem lookGo_pairwise {n : ℕ} {ct : ℤ} {st : ℚ} {ms sb sa : Option ℤ}
    {cooc : ℕ → ℕ → ℚ} {sim : ℕ → ℕ → SimVal} {l : List ℕ}
    (h : l.Pairwise (· < ·)) :
    (lookGo n ct st ms sb sa cooc sim l).Pairwise pairLexLt := by
  induction l with
  | nil => simp [lookGo]
  | cons i rest ih =>
    obtain ⟨hhead, hrest⟩ := List.pairwise_cons.mp h
    rw [lookGo]
    split_ifs
    · exact ih hrest
    · exact ih hrest
    · simp
    · exact ih hrest
    · rw [List.pairwise_append]
      refine ⟨anchorPairs_pairwise, ih hrest, ?_⟩
      intro a ha b hb
      have ha1 : a.1 = i := anchorPairs_first ha
      have hb1 : b.1 ∈ rest := lookGo_first_mem hb
      exact Or.inl (ha1 ▸ hhead _ hb1)

theorem insertDesc_pairwise {x : ℕ × ℕ × SimVal} {l : List (ℕ × ℕ × SimVal)}
    (hPx : 0 < x.2.2.rad) (hPl : ∀ t ∈ l, 0 < t.2.2.rad)
    (hl : l.Pairwise simDescOrder) (hlex : ∀ y ∈ l, pairLexLt y x) :
    (insertDesc x l).Pairwise simDescOrder := by
  induction l with
  | nil => simp [insertDesc, List.pairwise_singleton]
  | cons y ys ih =>
    obtain ⟨hyz, hys⟩ := List.pairwise_cons.mp hl
    have hPy : 0 < y.2.2.rad := hPl y (List.mem_cons_self y ys)
    rw [insertDesc]
    split_ifs with hlt
    · have hyv : y.2.2.val < x.2.2.val := (SimVal.ltB_iff hPy hPx).mp hlt
      rw [List.pairwise_cons]
      refine ⟨?_, hl⟩
      intro z hz
      rcases List.mem_cons.mp hz with rfl | hzys
      · exact ⟨hyv.le, fun heq => absurd heq hyv.ne'⟩
      · have hzy : simDescOrder y z := hyz z hzys
        refine ⟨hzy.1.trans hyv.le, fun heq => ?_⟩
        exact absurd heq (by rw [heq] at hyv ⊢; exact absurd (hzy.1.trans_lt hyv) (lt_irrefl _))
    · have hxy : x.2.2.val ≤ y.2.2.val := by
        have hnot : ¬ (y.2.2.val < x.2.2.val) :=
          fun hv => hlt ((SimVal.ltB_iff hPy hPx).mpr hv)
        exact not_lt.mp hnot
      rw [List.pairwise_cons]
      constructor
      · intro z hz
        rcases mem_insertDesc.mp hz with rfl | hzys
        · exact ⟨hxy, fun _ => hlex y (List.mem_cons_self y ys)⟩
        · exact hyz z hzys
      · exact ih (fun t ht => hPl t (List.mem_cons_of_mem y ht)) hys
          (fun t ht => hlex t (List.mem_cons_of_mem y ht))

theorem foldl_insertDesc_pairwise :
    ∀ (l acc : List (ℕ × ℕ × SimVal)),
      (∀ t ∈ l, 0 < t.2.2.rad) → (∀ t ∈ acc, 0 < t.2.2.rad) →
      l.Pairwise pairLexLt → acc.Pairwise simDescOrder →
      (∀ a ∈ acc, ∀ x ∈ l, pairLexLt a x) →
      (l.foldl (fun acc x => insertDesc x acc) acc).Pairwise simDescOrder := by
  intro l
  induction l with
  | nil => intro acc _ _ _ hacc _; exact hacc
  | cons x xs ih =>
    intro acc hPl hPacc hlex hacc hcross
    obtain ⟨hxhead, hxs⟩ := List.pairwise_cons.mp hlex
    rw [List.foldl_cons]
    refine ih (insertDesc x acc) (fun t ht => hPl t (List.mem_cons_of_mem x ht)) ?_ hxs ?_ ?_
    · intro t ht
      rcases mem_insertDesc.mp ht with rfl | htacc
      · exact hPl t (List.mem_cons_self t xs)
      · exact hPacc t htacc
    · exact insertDesc_pairwise (hPl x (List.mem_cons_self x xs)) hPacc hacc
        (fun a ha => hcross a ha x (List.mem_cons_self x xs))
    · intro a ha z hz
      rcases mem_insertDesc.mp ha with rfl | haacc
      · exact hxhead z hz
      · exact hcross a haacc z (List.mem_cons_of_mem x hz)

theorem sortBySimDesc_pairwise {l : List (ℕ × ℕ × SimVal)}
    (hP : ∀ t ∈ l, 0 < t.2.2.rad) (hlex : l.Pairwise pairLexLt) :
    (sortBySimDesc l).Pairwise simDescOrder := by
  rw [sortBySimDesc]
  exact foldl_insertDesc_pairwise l [] hP (by simp) hlex (by simp) (by simp)

/-- C3: the list returned by `find_similar_noncooccurring_pairs` is sorted
by similarity in non-increasing order, and among triples of equal
similarity value the order is ascending by the pair (i, j) — the stable
sort preserves the generation order, which is lexicographic in (i, j). -/
theorem find_similar_sorted (effects cooccurrences : List (List ℚ)) (ct : ℤ)
    (st : ℚ) (ms sb sa : Option ℤ) (flag : Bool) :
    (find_similar_noncooccurring_pairs effects cooccurrences ct st ms sb sa
      flag).Pairwise simDescOrder := by
  simp only [find_similar_noncooccurring_pairs]
  refine sortBySimDesc_pairwise ?_ (lookGo_pairwise (List.pairwise_lt_range _))
  intro t ht
  exact lookGo_rad_pos (fun i j => cosSim_rad_pos _ _) ht

end SaeHacking
